import Mathlib

/-!
Verification of the fuzzy_rocks storage layer (`src/database.rs`).

The file shallowly embeds the storage layer: RocksDB column families become
functions from keys to optional byte strings (bytes are `Nat`s below 256,
table keys are the `Nat`s whose 8-byte little-endian encodings the Rust code
uses, variant fingerprints are raw byte strings).  Rust `usize` arithmetic is
modelled by `Nat`; every theorem either bounds the values below `2 ^ 64` or
proves the bound as an invariant, so no wrap-around is reachable in the
modelled executions.

The binary codecs (`bincode` with either fixint or varint encoding, little
endian, trailing bytes rejected) and the helper modules `bincode_helpers`,
`key_groups` and `records` are not part of the source tree; definitions for
them are modelled from the specification and marked as such.
-/

namespace FuzzyRocksDB

/-- Byte strings: lists of `Nat`s intended to be below 256. -/
abbrev Bytes := List Nat

/-- Value of a little-endian byte string. -/
def leVal (bs : Bytes) : Nat := bs.foldr (fun b acc => b + 256 * acc) 0

/-- Modelled from the spec: the 8-byte little-endian (fixint) encoding of a
`u64`/`usize`, as produced by `bincode`'s `with_fixint_encoding` +
`with_little_endian` and by `usize::to_le_bytes`. -/
def u64Bytes (n : Nat) : Bytes :=
  [n % 256, n / 256 % 256, n / 65536 % 256, n / 16777216 % 256,
   n / 4294967296 % 256, n / 1099511627776 % 256,
   n / 281474976710656 % 256, n / 72057594037927936 % 256]

/-- Modelled from the spec: decode `n` consecutive 8-byte little-endian
elements, rejecting trailing bytes (the shape `bincode` fixint deserialization
of a `Vec`/`HashSet` body expects). -/
def decodeChunks : Nat → Bytes → Option (List Nat)
  | 0, rest => if rest = [] then some [] else none
  | n + 1, rest =>
    if 8 ≤ rest.length then
      match decodeChunks n (rest.drop 8) with
      | some l => some (leVal (rest.take 8) :: l)
      | none => none
    else none

/-- Modelled from the spec: `bincode` fixint little-endian deserialization of
a sequence of `KeyGroupID`s (count prefix, then the elements). -/
def decodeKGList (b : Bytes) : Option (List Nat) :=
  if 8 ≤ b.length then decodeChunks (leVal (b.take 8)) (b.drop 8) else none

/-- Modelled from the spec: `bincode` fixint little-endian serialization of a
sequence of `KeyGroupID`s. -/
def encodeKGList (l : List Nat) : Bytes :=
  u64Bytes l.length ++ (l.map u64Bytes).flatten

/-- Deserialize a variant entry as a `HashSet<KeyGroupID>`: the decoded
element list collapsed to a set. -/
def decodeKGSet (b : Bytes) : Option (Finset Nat) :=
  (decodeKGList b).map List.toFinset

/-- Serialize a `HashSet<KeyGroupID>` (modelled with ascending element
order). -/
def serializeKGSet (s : Finset Nat) : Bytes :=
  encodeKGList (s.sort (· ≤ ·))

/-- The merge callback installed on the `variants` column family
(`variant_append_merge` in `database.rs`): deserialize the existing entry (if
any) and every operand as sets of `KeyGroupID`s, union them, and serialize the
union.  `none` models the `unwrap()` panic on an undeserializable input; the
`key` argument is unused by the Rust code and omitted. -/
def variant_append_merge (existing_val : Option Bytes) (operands : List Bytes) :
    Option Bytes :=
  (match existing_val with
   | some existing_bytes => decodeKGSet existing_bytes
   | none => some (∅ : Finset Nat)).bind fun variant_vec0 =>
  (operands.foldlM
      (fun acc op => (decodeKGSet op).map (fun s => acc ∪ s)) variant_vec0).bind
    fun variant_vec => some (serializeKGSet variant_vec)

/-- The `variants` column family: fingerprint bytes to entry bytes. -/
abbrev VariantsTable := Bytes → Option Bytes

/-- Modelled from the spec: `bincode_helpers::bincode_vec_fixint_len`, the
length-prefix-only peek of a fixint-serialized vector (its first 8 bytes,
little endian). -/
def bincode_vec_fixint_len (b : Bytes) : Nat := leVal (b.take 8)

/-- Take `n` complete 8-byte chunks from a byte string. -/
def fixintChunks : Nat → Bytes → List Bytes
  | 0, _ => []
  | n + 1, rest =>
    if 8 ≤ rest.length then rest.take 8 :: fixintChunks n (rest.drop 8) else []

/-- Modelled from the spec: `bincode_helpers::bincode_vec_iter::<KeyGroupID>`,
iterating the fixed-width elements of a serialized vector without full
deserialization. -/
def bincode_vec_iter (b : Bytes) : List Bytes :=
  fixintChunks (bincode_vec_fixint_len b) (b.drop 8)

/-- `DBConnection::visit_exact_variant`: if the fingerprint has an entry, run
the visitor closure on the raw entry bytes; otherwise do nothing.  The
closure's effects are modelled by state passing. -/
def visit_exact_variant {σ : Type} (tbl : VariantsTable) (variant : Bytes)
    (visitor_closure : Bytes → σ → σ) (st : σ) : σ :=
  match tbl variant with
  | some variant_vec_bytes => visitor_closure variant_vec_bytes st
  | none => st

/-- `DBConnection::visit_variants`: run the visitor closure on the raw entry
bytes of every fingerprint in the set that has an entry.  The `HashSet` of
fingerprints is modelled as a list in iteration order. -/
def visit_variants {σ : Type} (tbl : VariantsTable) (variants : List Bytes)
    (visitor_closure : Bytes → σ → σ) (st : σ) : σ :=
  variants.foldl
    (fun acc variant =>
      match tbl variant with
      | some variant_vec_bytes => visitor_closure variant_vec_bytes acc
      | none => acc) st

/-- One iteration of the `delete_variant_references` loop: if `variant` has an
entry whose length prefix exceeds 1, rebuild it with `key_group`'s references
absent; otherwise remove the entry entirely; absent entries are skipped. -/
def delete_variant_step (key_group : Nat) (t : VariantsTable) (variant : Bytes) :
    VariantsTable :=
  match t variant with
  | some variant_entry_bytes =>
    let variant_entry_len := bincode_vec_fixint_len variant_entry_bytes
    if 1 < variant_entry_len then
      let new_vec := ((bincode_vec_iter variant_entry_bytes).map leVal).filter
        (fun other_key_group_id => other_key_group_id ≠ key_group)
      fun f => if f = variant then some (encodeKGList new_vec) else t f
    else
      fun f => if f = variant then none else t f
  | none => t

/-- `DBConnection::delete_variant_references`: for each listed fingerprint
with an entry, either rebuild the entry without `key_group` (when its length
prefix exceeds 1) or delete the entry outright. -/
def delete_variant_references (key_group : Nat) (variants : List Bytes)
    (tbl : VariantsTable) : VariantsTable :=
  variants.foldl (delete_variant_step key_group) tbl

/-- The helper `new_variant_vec` inside `put_variant_references`: the
serialized one-element `Vec<KeyGroupID>` used as the merge operand. -/
def new_variant_vec (key_group : Nat) : Bytes := encodeKGList [key_group]

/-- `DBConnection::put_variant_references`: merge a singleton operand into
each listed fingerprint's entry.  RocksDB applies `variant_append_merge` to
the stacked operands; since the merge output is itself a serialized set, the
associative operand application is modelled by applying the full merge at
every `merge_cf` call.  `none` models a merge-callback panic. -/
def put_variant_references (key_group : Nat) (variants : List Bytes)
    (tbl : VariantsTable) : Option VariantsTable :=
  variants.foldlM
    (fun t variant =>
      (variant_append_merge (t variant) [new_variant_vec key_group]).map
        (fun merged => fun f => if f = variant then some merged else t f))
    tbl

/-- The table-wide consistency property of the `variants` column family: a
stored entry is a genuine byte string that deserializes to a non-empty,
duplicate-free sequence of `KeyGroupID`s (the wire form of a non-empty set). -/
def VariantInvariant (tbl : VariantsTable) : Prop :=
  ∀ f b, tbl f = some b →
    (∀ y ∈ b, y < 256) ∧ ∃ l, decodeKGList b = some l ∧ l ≠ [] ∧ l.Nodup

/-- Modelled from the spec: `bincode` varint encoding of a `u64`/`usize`
(values below 251 are a single byte; larger values are a width marker 251,
252 or 253 followed by the value in 2, 4 or 8 little-endian bytes). -/
def varintEncode (n : Nat) : Bytes :=
  if n < 251 then [n]
  else if n < 65536 then [251, n % 256, n / 256 % 256]
  else if n < 4294967296 then
    [252, n % 256, n / 256 % 256, n / 65536 % 256, n / 16777216 % 256]
  else 253 :: u64Bytes n

/-- Modelled from the spec: `bincode` varint decoding of a `u64`/`usize`,
returning the value and the unconsumed tail; `none` is a deserialization
failure. -/
def varintDecode : Bytes → Option (Nat × Bytes)
  | [] => none
  | x :: rest =>
    if x < 251 then some (x, rest)
    else if x = 251 then
      if 2 ≤ rest.length then some (leVal (rest.take 2), rest.drop 2) else none
    else if x = 252 then
      if 4 ≤ rest.length then some (leVal (rest.take 4), rest.drop 4) else none
    else if x = 253 then
      if 8 ≤ rest.length then some (leVal (rest.take 8), rest.drop 8) else none
    else none

/-- Modelled from the spec: decode `n` consecutive varint elements, returning
them with the unconsumed tail. -/
def decodeKeyElems : Nat → Bytes → Option (List Nat × Bytes)
  | 0, rest => some ([], rest)
  | n + 1, rest =>
    (varintDecode rest).bind fun p =>
      (decodeKeyElems n p.2).bind fun q => some (p.1 :: q.1, q.2)

/-- Modelled from the spec: `bincode` varint little-endian deserialization of
a sequence (count prefix, then the elements; trailing bytes rejected).  Used
for key-group entries and for `RecordData`'s group-index list. -/
def decodeKeyList (b : Bytes) : Option (List Nat) :=
  (varintDecode b).bind fun p =>
    (decodeKeyElems p.1 p.2).bind fun q => if q.2 = [] then some q.1 else none

/-- Modelled from the spec: `bincode` varint little-endian serialization of a
sequence. -/
def encodeKeyList (l : List Nat) : Bytes :=
  varintEncode l.length ++ (l.map varintEncode).flatten

/-- Serialize a `HashSet` of raw keys (raw keys are modelled as `usize`
values and the unspecified `HashSet` iteration order as ascending order). -/
def serializeKeySet (s : Finset Nat) : Bytes := encodeKeyList (s.sort (· ≤ ·))

/-- Outcome of a Rust call: `Ok`, `Err`, or a panic (`unwrap!`/`panic!`). -/
inductive RustResult (α : Type) where
  | ok : α → RustResult α
  | err : String → RustResult α
  | panicked : RustResult α
deriving DecidableEq

/-- The `keys` column family: `KeyGroupID` to serialized raw-key set. -/
abbrev KeysTable := Nat → Option Bytes

/-- The `rec_data` column family: `RecordID` to serialized `RecordData`. -/
abbrev RecDataTable := Nat → Option Bytes

/-- `DBConnection::get_keys_in_group`: deserialize the stored raw-key vector;
a missing entry or an empty vector is the `Invalid record_id` error, an
undeserializable entry is the `unwrap()` panic.  The perf-counter side
channel (disabled behind the `perf_counters` feature) is ignored. -/
def get_keys_in_group (tbl : KeysTable) (key_group : Nat) :
    RustResult (List Nat) :=
  match tbl key_group with
  | some keys_vec_bytes =>
    match decodeKeyList keys_vec_bytes with
    | some keys_vec =>
      if keys_vec ≠ [] then .ok keys_vec else .err "Invalid record_id"
    | none => .panicked
  | none => .err "Invalid record_id"

/-- `DBConnection::keys_count_in_group`: read only the varint length prefix
of the stored entry; a missing entry is the `panic!()` and a corrupt prefix
the abnormal termination the spec documents. -/
def keys_count_in_group (tbl : KeysTable) (key_group : Nat) : RustResult Nat :=
  match tbl key_group with
  | some keys_vec_bytes =>
    match varintDecode keys_vec_bytes with
    | some p => .ok p.1
    | none => .panicked
  | none => .panicked

/-- `DBConnection::put_key_group_entry`: serialize the raw-key set and store
it, overwriting any previous entry. -/
def put_key_group_entry (tbl : KeysTable) (key_group_id : Nat)
    (raw_keys : Finset Nat) : KeysTable :=
  fun g => if g = key_group_id then some (serializeKeySet raw_keys) else tbl g

/-- Modelled from the spec: `KeyGroupID::from_record_and_idx`, the opaque
deterministic derivation of a `KeyGroupID` from a `RecordID` and a group
index; the concrete pairing is unspecified by the spec and irrelevant to the
claims, which mention the derivation only symbolically. -/
def from_record_and_idx (record_id group_idx : Nat) : Nat :=
  record_id * 4294967296 + group_idx

/-- `DBConnection::get_record_key_groups`: deserialize the stored
`RecordData`, fail with the `Invalid record_id` error on a missing entry or
an empty group list, and otherwise reconstruct each `KeyGroupID` from the
record and the stored index. -/
def get_record_key_groups (tbl : RecDataTable) (record_id : Nat) :
    RustResult (List Nat) :=
  match tbl record_id with
  | some rec_data_vec_bytes =>
    match decodeKeyList rec_data_vec_bytes with
    | some key_groups =>
      if key_groups ≠ [] then
        .ok (key_groups.map (fun group_idx => from_record_and_idx record_id group_idx))
      else .err "Invalid record_id"
    | none => .panicked
  | none => .err "Invalid record_id"

/-- The largest `usize` on the 64-bit targets the source asserts
(`debug_assert!(size_of::<usize>() == 8)`). -/
def USIZE_MAX : Nat := 2 ^ 64 - 1

/-- The loop of `probe_for_max_sequential_key`, with an explicit fuel
parameter standing in for the source's unbounded `loop`; `none` means the
fuel ran out, and `probeLoop_correct` shows the fuel supplied by
`probe_for_max_sequential_key` never does.  `tbl k` models whether the probed
column family has an entry at key `k` (keys are probed through their 8-byte
little-endian encodings, which are injective on `usize`).  The `usize`
arithmetic is in-range `Nat` arithmetic: the probe invariants keep
`cur_val + 1 ≤ N`, `guess_max * 2 < mx` and `mn ≤ guess_max ≤ mx ≤ USIZE_MAX`,
so no `usize` overflow or underflow is reachable in the proved executions. -/
def probeLoop (tbl : Nat → Bool) : Nat → Nat → Nat → Nat → Nat → Option Nat
  | 0, _, _, _, _ => none
  | fuel + 1, mn, mx, guess_max, cur_val =>
    if mx = mn then some cur_val
    else if tbl cur_val then
      let mn' := cur_val + 1
      let guess' := if guess_max < mx / 2 then guess_max * 2 else mx
      probeLoop tbl fuel mn' mx guess' ((guess' - mn') / 2 + mn')
    else
      if cur_val = mn then some cur_val
      else probeLoop tbl fuel mn cur_val cur_val ((cur_val - mn) / 2 + mn)

/-- The seed of `guess_max` in `probe_for_max_sequential_key`: the starting
hint squared, forced into `1..=usize::MAX`. -/
def initial_guess (starting_hint : Nat) : Nat :=
  if 4294967295 < starting_hint then USIZE_MAX
  else if starting_hint < 1 then 1
  else starting_hint * starting_hint

/-- `probe_for_max_sequential_key` in `database.rs`: binary-search the dense
key space downward from `[0, usize::MAX)` with a geometrically growing guess
seeded from `starting_hint`.  The fuel `2 ^ 66` exceeds the worst-case bound
`2 * (mx - mn) + 2` established by `probeLoop_correct`. -/
def probe_for_max_sequential_key (tbl : Nat → Bool) (starting_hint : Nat) :
    Option Nat :=
  probeLoop tbl (2 ^ 66) 0 USIZE_MAX (initial_guess starting_hint) starting_hint

/-- A `DBConnection`'s storage state: the four column families plus whether
the `variant_append_merge` operator is installed on `variants` (the RocksDB
operator binding itself is outside the embedding, so installation is a
flag). -/
structure DBState where
  keys : KeysTable
  rec_data : RecDataTable
  values : Nat → Option Bytes
  variants : VariantsTable
  variantsMergeInstalled : Bool

/-- `DBConnection::record_count`: probe the `rec_data` column family with
starting hint 255. -/
def record_count (s : DBState) : Option Nat :=
  probe_for_max_sequential_key (fun k => (s.rec_data k).isSome) 255

/-- `DBConnection::reset_database`: drop and recreate all four column
families (leaving them empty) and re-install the merge operator on
`variants`.  Dropping existing column families succeeds on a freshly opened
store, so the model is total. -/
def reset_database (_db : DBState) : DBState :=
  { keys := fun _ => none
    rec_data := fun _ => none
    values := fun _ => none
    variants := fun _ => none
    variantsMergeInstalled := true }

/-! ## Theorems -/

theorem length_u64Bytes (n : Nat) : (u64Bytes n).length = 8 := rfl

theorem mem_u64Bytes_lt (n : Nat) : ∀ x ∈ u64Bytes n, x < 256 := by
  simp only [u64Bytes, List.mem_cons, List.not_mem_nil, or_false]
  intro x hx
  rcases hx with h | h | h | h | h | h | h | h <;> subst h <;> omega

theorem leVal_u64Bytes {n : Nat} (h : n < 2 ^ 64) : leVal (u64Bytes n) = n := by
  have h' : n < 18446744073709551616 := by norm_num at h ⊢; omega
  simp only [u64Bytes, leVal, List.foldr_cons, List.foldr_nil]
  omega

theorem leVal_lt_of_bytes {bs : Bytes} (hlen : bs.length ≤ 8)
    (hb : ∀ x ∈ bs, x < 256) : leVal bs < 2 ^ 64 := by
  have h64 : (2 : Nat) ^ 64 = 18446744073709551616 := by norm_num
  rw [h64]
  match bs, hlen with
  | [], _ => simp [leVal]
  | [a], _ => simp only [leVal, List.foldr_cons, List.foldr_nil]; have := hb a; simp at this; omega
  | [a, b], _ =>
    simp only [leVal, List.foldr_cons, List.foldr_nil]
    have ha := hb a; have hbb := hb b; simp at ha hbb; omega
  | [a, b, c], _ =>
    simp only [leVal, List.foldr_cons, List.foldr_nil]
    have ha := hb a; have hbb := hb b; have hc := hb c; simp at ha hbb hc; omega
  | [a, b, c, d], _ =>
    simp only [leVal, List.foldr_cons, List.foldr_nil]
    have ha := hb a; have hbb := hb b; have hc := hb c; have hd := hb d
    simp at ha hbb hc hd; omega
  | [a, b, c, d, e], _ =>
    simp only [leVal, List.foldr_cons, List.foldr_nil]
    have ha := hb a; have hbb := hb b; have hc := hb c; have hd := hb d; have he := hb e
    simp at ha hbb hc hd he; omega
  | [a, b, c, d, e, f], _ =>
    simp only [leVal, List.foldr_cons, List.foldr_nil]
    have ha := hb a; have hbb := hb b; have hc := hb c; have hd := hb d; have he := hb e
    have hf := hb f
    simp at ha hbb hc hd he hf; omega
  | [a, b, c, d, e, f, g], _ =>
    simp only [leVal, List.foldr_cons, List.foldr_nil]
    have ha := hb a; have hbb := hb b; have hc := hb c; have hd := hb d; have he := hb e
    have hf := hb f; have hg := hb g
    simp at ha hbb hc hd he hf hg; omega
  | [a, b, c, d, e, f, g, i], _ =>
    simp only [leVal, List.foldr_cons, List.foldr_nil]
    have ha := hb a; have hbb := hb b; have hc := hb c; have hd := hb d; have he := hb e
    have hf := hb f; have hg := hb g; have hi := hb i
    simp at ha hbb hc hd he hf hg hi; omega

/-! ### Fixint vector codec (variant entries)

A `Vec<KeyGroupID>`/`HashSet<KeyGroupID>` serialized by `bincode` with
`with_fixint_encoding().with_little_endian()` is an 8-byte little-endian
element count followed by the 8-byte little-endian elements; `bincode`'s
`DefaultOptions` rejects trailing bytes on deserialization. -/

theorem decodeChunks_encode {l : List Nat} (h : ∀ x ∈ l, x < 2 ^ 64) :
    decodeChunks l.length ((l.map u64Bytes).flatten) = some l := by
  induction l with
  | nil => simp [decodeChunks]
  | cons a t ih =>
    have ha : a < 2 ^ 64 := h a (List.mem_cons_self a t)
    have ht : ∀ x ∈ t, x < 2 ^ 64 := fun x hx => h x (List.mem_cons_of_mem a hx)
    have hlen8 : (u64Bytes a).length = 8 := length_u64Bytes a
    simp only [List.length_cons, List.map_cons, List.flatten_cons, decodeChunks]
    rw [List.take_append_of_le_length (by omega), List.drop_append_of_le_length (by omega)]
    have htake : (u64Bytes a).take 8 = u64Bytes a := List.take_of_length_le (by omega)
    have hdrop : (u64Bytes a).drop 8 = [] := List.drop_of_length_le (by omega)
    rw [htake, hdrop, List.nil_append, ih ht]
    have hge : 8 ≤ ((u64Bytes a) ++ (t.map u64Bytes).flatten).length := by
      rw [List.length_append, hlen8]; omega
    rw [if_pos hge, leVal_u64Bytes ha]

theorem decodeKGList_encode {l : List Nat} (hlen : l.length < 2 ^ 64)
    (h : ∀ x ∈ l, x < 2 ^ 64) : decodeKGList (encodeKGList l) = some l := by
  unfold decodeKGList encodeKGList
  have hlen8 : (u64Bytes l.length).length = 8 := length_u64Bytes _
  rw [List.take_append_of_le_length (by omega), List.drop_append_of_le_length (by omega)]
  have htake : (u64Bytes l.length).take 8 = u64Bytes l.length :=
    List.take_of_length_le (by omega)
  have hdrop : (u64Bytes l.length).drop 8 = [] := List.drop_of_length_le (by omega)
  rw [htake, hdrop, List.nil_append, leVal_u64Bytes hlen]
  have hge : 8 ≤ ((u64Bytes l.length) ++ (l.map u64Bytes).flatten).length := by
    rw [List.length_append, hlen8]; omega
  rw [if_pos hge, decodeChunks_encode h]

/-- Every byte of an `encodeKGList` output is a genuine byte. -/
theorem encodeKGList_bytes (l : List Nat) : ∀ x ∈ encodeKGList l, x < 256 := by
  intro x hx
  rcases List.mem_append.mp hx with h | h
  · exact mem_u64Bytes_lt _ x h
  · rcases List.mem_flatten.mp h with ⟨c, hc, hxc⟩
    rcases List.mem_map.mp hc with ⟨a, _, rfl⟩
    exact mem_u64Bytes_lt _ x hxc

/-- A successful chunk decode yields exactly `n` elements, all below `2 ^ 64`
when the input is made of genuine bytes. -/
theorem decodeChunks_ok {n : Nat} {rest : Bytes} {l : List Nat}
    (hd : decodeChunks n rest = some l) (hb : ∀ x ∈ rest, x < 256) :
    l.length = n ∧ ∀ x ∈ l, x < 2 ^ 64 := by
  induction n generalizing rest l with
  | zero =>
    unfold decodeChunks at hd
    by_cases h : rest = []
    · rw [if_pos h] at hd
      cases hd
      simp
    · rw [if_neg h] at hd; cases hd
  | succ n ih =>
    unfold decodeChunks at hd
    by_cases h : 8 ≤ rest.length
    · rw [if_pos h] at hd
      cases hdrop : decodeChunks n (rest.drop 8) with
      | none => rw [hdrop] at hd; cases hd
      | some t =>
        rw [hdrop] at hd
        cases hd
        have hbd : ∀ x ∈ rest.drop 8, x < 256 := fun x hx => hb x (List.mem_of_mem_drop hx)
        obtain ⟨hl, he⟩ := ih hdrop hbd
        refine ⟨by simp [hl], ?_⟩
        intro x hx
        rcases List.mem_cons.mp hx with rfl | hx
        · exact leVal_lt_of_bytes (by simp) (fun y hy => hb y (List.mem_of_mem_take hy))
        · exact he x hx
    · rw [if_neg h] at hd; cases hd

/-- A successful `decodeKGList` on a genuine byte string yields a list whose
length is the stored count prefix and whose elements are `usize` values. -/
theorem decodeKGList_ok {b : Bytes} {l : List Nat} (hd : decodeKGList b = some l)
    (hb : ∀ x ∈ b, x < 256) :
    l.length = leVal (b.take 8) ∧ l.length < 2 ^ 64 ∧ ∀ x ∈ l, x < 2 ^ 64 := by
  unfold decodeKGList at hd
  by_cases h : 8 ≤ b.length
  · rw [if_pos h] at hd
    obtain ⟨hl, he⟩ := decodeChunks_ok hd (fun x hx => hb x (List.mem_of_mem_drop hx))
    have hcount : leVal (b.take 8) < 2 ^ 64 :=
      leVal_lt_of_bytes (by simp) (fun y hy => hb y (List.mem_of_mem_take hy))
    exact ⟨hl, by omega, he⟩
  · rw [if_neg h] at hd; cases hd

/-! ### Variant entries as sets

`variant_append_merge` deserializes entries into a `HashSet<KeyGroupID>`.  A
`HashSet` is an unordered duplicate-free collection; it is modelled as a
`Finset Nat`, and its (order-unspecified) serialization is modelled
canonically by serializing the elements in ascending order.  Every property
stated about the results is order-independent, so the canonical choice is
harmless. -/

theorem decodeKGSet_serialize {s : Finset Nat} (hcard : s.card < 2 ^ 64)
    (h : ∀ x ∈ s, x < 2 ^ 64) : decodeKGSet (serializeKGSet s) = some s := by
  unfold decodeKGSet serializeKGSet
  rw [decodeKGList_encode]
  · simp
  · rw [Finset.length_sort]; exact hcard
  · intro x hx
    exact h x ((Finset.mem_sort (α := Nat) (· ≤ ·)).mp hx)

theorem decodeKGList_serializeKGSet {s : Finset Nat} (hcard : s.card < 2 ^ 64)
    (h : ∀ x ∈ s, x < 2 ^ 64) :
    decodeKGList (serializeKGSet s) = some (s.sort (· ≤ ·)) := by
  unfold serializeKGSet
  rw [decodeKGList_encode]
  · rw [Finset.length_sort]; exact hcard
  · intro x hx
    exact h x ((Finset.mem_sort (α := Nat) (· ≤ ·)).mp hx)

theorem foldlM_decode_serialize :
    ∀ (ops : List (Finset Nat)),
      (∀ s ∈ ops, s.card < 2 ^ 64 ∧ ∀ x ∈ s, x < 2 ^ 64) →
      ∀ init : Finset Nat,
        (ops.map serializeKGSet).foldlM
          (fun acc op => (decodeKGSet op).map (fun s => acc ∪ s)) init =
          some (ops.foldl (· ∪ ·) init) := by
  intro ops
  induction ops with
  | nil => intro _ init; rfl
  | cons a t ih =>
    intro hops init
    obtain ⟨h1, h2⟩ := hops a (List.mem_cons_self a t)
    have ht : ∀ s ∈ t, s.card < 2 ^ 64 ∧ ∀ x ∈ s, x < 2 ^ 64 :=
      fun s hs => hops s (List.mem_cons_of_mem a hs)
    simp only [List.map_cons, List.foldlM_cons, List.foldl_cons]
    rw [decodeKGSet_serialize h1 h2]
    simp only [Option.map_some']
    rw [show ((some (init ∪ a) >>= fun b =>
        (t.map serializeKGSet).foldlM
          (fun acc op => (decodeKGSet op).map (fun s => acc ∪ s)) b) =
        (t.map serializeKGSet).foldlM
          (fun acc op => (decodeKGSet op).map (fun s => acc ∪ s)) (init ∪ a))
      from rfl]
    exact ih ht (init ∪ a)

theorem variant_append_merge_sets {e : Option (Finset Nat)}
    {ops : List (Finset Nat)}
    (he : ∀ s ∈ e, s.card < 2 ^ 64 ∧ ∀ x ∈ s, x < 2 ^ 64)
    (hops : ∀ s ∈ ops, s.card < 2 ^ 64 ∧ ∀ x ∈ s, x < 2 ^ 64) :
    variant_append_merge (e.map serializeKGSet) (ops.map serializeKGSet) =
      some (serializeKGSet (ops.foldl (· ∪ ·) (e.getD ∅))) := by
  unfold variant_append_merge
  have hinit :
      (match e.map serializeKGSet with
       | some existing_bytes => decodeKGSet existing_bytes
       | none => some ∅) = some (e.getD ∅) := by
    cases e with
    | none => rfl
    | some s =>
      obtain ⟨h1, h2⟩ := he s rfl
      simp only [Option.map_some, Option.getD_some]
      exact decodeKGSet_serialize h1 h2
  rw [hinit, Option.some_bind, foldlM_decode_serialize ops hops (e.getD ∅),
    Option.some_bind]

/-! ### The variants column family and its operations

A column family is a finite-key map modelled as a function from keys to
optional stored byte strings.  The engine's point reads/writes/deletes are
exact-key operations; engine-level I/O errors are outside the embedding (every
claim is about the success path, which the spec's `StorageError` alternative
merely threads through). -/

theorem decodeChunks_length {n : Nat} {rest : Bytes} {l : List Nat}
    (hd : decodeChunks n rest = some l) : l.length = n := by
  induction n generalizing rest l with
  | zero =>
    unfold decodeChunks at hd
    by_cases h : rest = []
    · rw [if_pos h] at hd; cases hd; rfl
    · rw [if_neg h] at hd; cases hd
  | succ n ih =>
    unfold decodeChunks at hd
    by_cases h : 8 ≤ rest.length
    · rw [if_pos h] at hd
      cases hdrop : decodeChunks n (rest.drop 8) with
      | none => rw [hdrop] at hd; cases hd
      | some t => rw [hdrop] at hd; cases hd; simp [ih hdrop]
    · rw [if_neg h] at hd; cases hd

theorem fixintChunks_decode {n : Nat} {rest : Bytes} {l : List Nat}
    (hd : decodeChunks n rest = some l) : (fixintChunks n rest).map leVal = l := by
  induction n generalizing rest l with
  | zero =>
    unfold decodeChunks at hd
    by_cases h : rest = []
    · rw [if_pos h] at hd; cases hd; rfl
    · rw [if_neg h] at hd; cases hd
  | succ n ih =>
    unfold decodeChunks at hd
    by_cases h : 8 ≤ rest.length
    · rw [if_pos h] at hd
      cases hdrop : decodeChunks n (rest.drop 8) with
      | none => rw [hdrop] at hd; cases hd
      | some t =>
        rw [hdrop] at hd
        cases hd
        simp [fixintChunks, if_pos h, ih hdrop]
    · rw [if_neg h] at hd; cases hd

/-- On a decodable entry, the peeked length prefix is the decoded element
count and the chunk iterator recovers the decoded elements. -/
theorem bincode_vec_iter_decode {b : Bytes} {l : List Nat}
    (hd : decodeKGList b = some l) :
    bincode_vec_fixint_len b = l.length ∧ (bincode_vec_iter b).map leVal = l := by
  unfold decodeKGList at hd
  by_cases h : 8 ≤ b.length
  · rw [if_pos h] at hd
    refine ⟨(decodeChunks_length hd).symm, ?_⟩
    unfold bincode_vec_iter bincode_vec_fixint_len
    exact fixintChunks_decode hd
  · rw [if_neg h] at hd; cases hd

theorem delete_variant_references_not_mem {G : Nat} {fps : List Bytes}
    {tbl : VariantsTable} {f : Bytes} (hf : f ∉ fps) :
    delete_variant_references G fps tbl f = tbl f := by
  induction fps generalizing tbl with
  | nil => rfl
  | cons a t ih =>
    have hfa : f ≠ a := fun h => hf (h ▸ List.mem_cons_self a t)
    have hft : f ∉ t := fun h => hf (List.mem_cons_of_mem a h)
    show delete_variant_references G t (delete_variant_step G tbl a) f = tbl f
    rw [ih hft]
    unfold delete_variant_step
    cases tbl a with
    | none => rfl
    | some b =>
      simp only
      by_cases hlen : 1 < bincode_vec_fixint_len b
      · rw [if_pos hlen]; simp [hfa]
      · rw [if_neg hlen]; simp [hfa]

theorem delete_variant_step_at (G : Nat) (tbl : VariantsTable) (f : Bytes) :
    delete_variant_step G tbl f f =
      match tbl f with
      | some b =>
        if 1 < bincode_vec_fixint_len b then
          some (encodeKGList (((bincode_vec_iter b).map leVal).filter
            (fun x => x ≠ G)))
        else none
      | none => none := by
  unfold delete_variant_step
  cases h : tbl f with
  | none => simp [h]
  | some b =>
    simp only
    by_cases hlen : 1 < bincode_vec_fixint_len b
    · rw [if_pos hlen, if_pos hlen]; simp
    · rw [if_neg hlen, if_neg hlen]; simp [h]

theorem delete_variant_references_mem {G : Nat} {fps : List Bytes}
    {tbl : VariantsTable} {f : Bytes} (hnd : fps.Nodup) (hf : f ∈ fps) :
    delete_variant_references G fps tbl f =
      match tbl f with
      | some b =>
        if 1 < bincode_vec_fixint_len b then
          some (encodeKGList (((bincode_vec_iter b).map leVal).filter
            (fun x => x ≠ G)))
        else none
      | none => none := by
  obtain ⟨p, q, rfl⟩ := List.append_of_mem hf
  rw [List.nodup_append] at hnd
  obtain ⟨hp, hfq, hdisj⟩ := hnd
  have hnq : f ∉ q := (List.nodup_cons.mp hfq).1
  have hnp : f ∉ p := fun hmem => hdisj hmem (List.mem_cons_self f q)
  unfold delete_variant_references
  rw [List.foldl_append, List.foldl_cons]
  have h2 : List.foldl (delete_variant_step G)
      (delete_variant_step G (List.foldl (delete_variant_step G) tbl p) f) q f =
      delete_variant_step G (List.foldl (delete_variant_step G) tbl p) f f :=
    delete_variant_references_not_mem hnq
  rw [h2, delete_variant_step_at]
  have h1 : List.foldl (delete_variant_step G) tbl p f = tbl f :=
    delete_variant_references_not_mem hnp
  rw [h1]

/-! ### Probe correctness -/

theorem probeLoop_correct {N : Nat} {tbl : Nat → Bool}
    (htbl : ∀ k, tbl k = decide (k < N)) :
    ∀ fuel mn mx guess cur,
      mn ≤ N → N ≤ mx → mn ≤ cur → cur ≤ guess → guess ≤ mx → 1 ≤ guess →
      2 * (mx - mn) + (if cur = mx then 2 else 1) ≤ fuel →
      probeLoop tbl fuel mn mx guess cur = some N := by
  intro fuel
  induction fuel with
  | zero =>
    intro mn mx guess cur _ _ _ _ _ _ hfuel
    rcases eq_or_ne cur mx with h | h
    · rw [if_pos h] at hfuel; omega
    · rw [if_neg h] at hfuel; omega
  | succ fuel ih =>
    intro mn mx guess cur h1 h2 h3 h4 h5 h6 hfuel
    simp only [probeLoop]
    by_cases hmx : mx = mn
    · rw [if_pos hmx]
      congr 1
      omega
    · rw [if_neg hmx, htbl cur]
      by_cases hhit : cur < N
      · rw [if_pos ((decide_eq_true_eq).mpr hhit)]
        have hfuel2 : 2 * (mx - (cur + 1)) + 2 ≤ fuel := by
          rw [if_neg (show cur ≠ mx by omega)] at hfuel
          omega
        show probeLoop tbl fuel (cur + 1) mx
            (if guess < mx / 2 then guess * 2 else mx)
            (((if guess < mx / 2 then guess * 2 else mx) - (cur + 1)) / 2
              + (cur + 1)) = some N
        by_cases hg : guess < mx / 2
        · rw [if_pos hg]
          have hb : (if (guess * 2 - (cur + 1)) / 2 + (cur + 1) = mx
              then 2 else 1) ≤ 2 := by
            split_ifs <;> omega
          exact ih (cur + 1) mx (guess * 2)
            ((guess * 2 - (cur + 1)) / 2 + (cur + 1))
            (by omega) h2 (by omega) (by omega) (by omega) (by omega) (by omega)
        · rw [if_neg hg]
          have hb : (if (mx - (cur + 1)) / 2 + (cur + 1) = mx
              then 2 else 1) ≤ 2 := by
            split_ifs <;> omega
          exact ih (cur + 1) mx mx ((mx - (cur + 1)) / 2 + (cur + 1))
            (by omega) h2 (by omega) (by omega) (by omega) (by omega) (by omega)
      · rw [if_neg (by simp [hhit])]
        have hN : N ≤ cur := by omega
        by_cases hcmn : cur = mn
        · rw [if_pos hcmn]
          congr 1
          omega
        · rw [if_neg hcmn]
          have hfuel1 : 2 * (cur - mn) + 1 ≤ fuel := by
            rcases eq_or_ne cur mx with h | h
            · rw [if_pos h] at hfuel; omega
            · rw [if_neg h] at hfuel; omega
          have hlt : (cur - mn) / 2 + mn < cur := by omega
          have hb : (if (cur - mn) / 2 + mn = cur then 2 else 1) = 1 := by
            rw [if_neg (by omega)]
          exact ih mn cur cur ((cur - mn) / 2 + mn)
            h1 hN (by omega) (by omega) (by omega) (by omega) (by omega)

theorem initial_guess_bounds {starting_hint : Nat}
    (h : starting_hint ≤ USIZE_MAX) :
    starting_hint ≤ initial_guess starting_hint ∧
    initial_guess starting_hint ≤ USIZE_MAX ∧ 1 ≤ initial_guess starting_hint := by
  have hmax : USIZE_MAX = 18446744073709551615 := by norm_num [USIZE_MAX]
  unfold initial_guess
  split_ifs with h1 h2
  · omega
  · omega
  · refine ⟨Nat.le_mul_of_pos_left starting_hint (by omega), ?_, by nlinarith⟩
    have h3 : starting_hint * starting_hint ≤ 4294967295 * 4294967295 :=
      Nat.mul_le_mul (by omega) (by omega)
    omega

/-- C1.  For every table whose key set is exactly the dense range `0..N-1`
(`N` up to `usize::MAX`, the largest value for which the probed key
`usize::MAX` cannot be a hit) and every starting hint,
`probe_for_max_sequential_key` terminates (the bounds close to `min == max`)
and returns exactly `N`; in particular `record_count`, which probes
`rec_data` with hint 255, returns the number of records. -/
theorem probe_count_correct {N starting_hint : Nat} {tbl : Nat → Bool}
    (hN : N ≤ USIZE_MAX) (hhint : starting_hint ≤ USIZE_MAX)
    (hdense : ∀ k, tbl k = decide (k < N)) :
    probe_for_max_sequential_key tbl starting_hint = some N ∧
    ∀ s : DBState, (∀ k, (s.rec_data k).isSome = decide (k < N)) →
      record_count s = some N := by
  have hmax : USIZE_MAX = 18446744073709551615 := by norm_num [USIZE_MAX]
  have h66 : (2 : Nat) ^ 66 = 73786976294838206464 := by norm_num
  have h255 : (255 : Nat) ≤ USIZE_MAX := by omega
  constructor
  · obtain ⟨hg1, hg2, hg3⟩ := initial_guess_bounds hhint
    refine probeLoop_correct hdense (2 ^ 66) 0 USIZE_MAX
      (initial_guess starting_hint) starting_hint
      (Nat.zero_le N) hN (Nat.zero_le _) hg1 hg2 hg3 ?_
    rcases eq_or_ne starting_hint USIZE_MAX with h | h
    · rw [if_pos h]; omega
    · rw [if_neg h]; omega
  · intro s hs
    obtain ⟨hg1, hg2, hg3⟩ := initial_guess_bounds h255
    refine probeLoop_correct hs (2 ^ 66) 0 USIZE_MAX (initial_guess 255) 255
      (Nat.zero_le N) hN (Nat.zero_le _) hg1 hg2 hg3 ?_
    rw [if_neg (show (255 : Nat) ≠ USIZE_MAX by omega)]
    omega

/-- Witness for C1: a 3-record dense table probed with hint 7, and
`record_count` on a 3-record `rec_data` column family. -/
theorem probe_count_correct_witness :
    probe_for_max_sequential_key (fun k => decide (k < 3)) 7 = some 3 ∧
    record_count
      { keys := fun _ => none
        rec_data := fun k => if k < 3 then some [0] else none
        values := fun _ => none
        variants := fun _ => none
        variantsMergeInstalled := true } = some 3 := by
  have h := @probe_count_correct 3 7 (fun k => decide (k < 3))
    (by norm_num [USIZE_MAX]) (by norm_num [USIZE_MAX]) (fun k => rfl)
  refine ⟨h.1, h.2 _ ?_⟩
  intro k
  by_cases hk : k < 3 <;> simp [hk]

/-! ### Merge protocol -/

theorem mem_foldl_union {l : List (Finset Nat)} {init : Finset Nat} {x : Nat} :
    x ∈ l.foldl (· ∪ ·) init ↔ x ∈ init ∨ ∃ s ∈ l, x ∈ s := by
  induction l generalizing init with
  | nil => simp
  | cons a t ih =>
    rw [List.foldl_cons, ih]
    simp only [Finset.mem_union, List.mem_cons]
    constructor
    · rintro (⟨h | h⟩ | ⟨s, hs, hx⟩)
      · exact Or.inl h
      · exact Or.inr ⟨a, Or.inl rfl, h⟩
      · exact Or.inr ⟨s, Or.inr hs, hx⟩
    · rintro (h | ⟨s, rfl | hs, hx⟩)
      · exact Or.inl (Or.inl h)
      · exact Or.inl (Or.inr hx)
      · exact Or.inr ⟨s, hs, hx⟩

/-- C2.  `variant_append_merge` is a pure function of the existing value and
the operands whose output is the canonical serialization of the union of the
decoded existing entry (empty if absent) with all decoded operands, and it
decodes back to that union whenever the union is `usize`-representable.
Consequently merging the singletons `{A}`, `{B}`, `{A}` into an initially
absent entry — split in any way into a first and a second merge call, the
operands in any order — yields an entry decoding to exactly `{A, B}`. -/
theorem variant_append_merge_union :
    (∀ (e : Option (Finset Nat)) (ops : List (Finset Nat)),
      (∀ s ∈ e, s.card < 2 ^ 64 ∧ ∀ x ∈ s, x < 2 ^ 64) →
      (∀ s ∈ ops, s.card < 2 ^ 64 ∧ ∀ x ∈ s, x < 2 ^ 64) →
      variant_append_merge (e.map serializeKGSet) (ops.map serializeKGSet) =
        some (serializeKGSet (ops.foldl (· ∪ ·) (e.getD ∅))) ∧
      ((ops.foldl (· ∪ ·) (e.getD ∅)).card < 2 ^ 64 →
        decodeKGSet (serializeKGSet (ops.foldl (· ∪ ·) (e.getD ∅))) =
          some (ops.foldl (· ∪ ·) (e.getD ∅)))) ∧
    (∀ A B : Nat, A < 2 ^ 64 → B < 2 ^ 64 →
      ∀ l1 l2 : List (Finset Nat), (l1 ++ l2).Perm [{A}, {B}, {A}] →
        variant_append_merge
          (variant_append_merge none (l1.map serializeKGSet))
          (l2.map serializeKGSet) = some (serializeKGSet {A, B})) := by
  have hElem : ∀ (e : Option (Finset Nat)) (ops : List (Finset Nat)),
      (∀ s ∈ e, ∀ x ∈ s, x < 2 ^ 64) →
      (∀ s ∈ ops, ∀ x ∈ s, x < 2 ^ 64) →
      ∀ x ∈ ops.foldl (· ∪ ·) (e.getD ∅), x < 2 ^ 64 := by
    intro e ops he hops x hx
    rcases mem_foldl_union.mp hx with h | ⟨s, hs, hx⟩
    · cases e with
      | none => simp at h
      | some s0 => exact he s0 rfl x h
    · exact hops s hs x hx
  have hmain : ∀ (e : Option (Finset Nat)) (ops : List (Finset Nat)),
      (∀ s ∈ e, s.card < 2 ^ 64 ∧ ∀ x ∈ s, x < 2 ^ 64) →
      (∀ s ∈ ops, s.card < 2 ^ 64 ∧ ∀ x ∈ s, x < 2 ^ 64) →
      variant_append_merge (e.map serializeKGSet) (ops.map serializeKGSet) =
        some (serializeKGSet (ops.foldl (· ∪ ·) (e.getD ∅))) ∧
      ((ops.foldl (· ∪ ·) (e.getD ∅)).card < 2 ^ 64 →
        decodeKGSet (serializeKGSet (ops.foldl (· ∪ ·) (e.getD ∅))) =
          some (ops.foldl (· ∪ ·) (e.getD ∅))) := by
    intro e ops he hops
    refine ⟨variant_append_merge_sets he hops, fun hcard => ?_⟩
    exact decodeKGSet_serialize hcard
      (hElem e ops (fun s hs => (he s hs).2) (fun s hs => (hops s hs).2))
  refine ⟨hmain, ?_⟩
  intro A B hA hB l1 l2 hperm
  have hmem : ∀ s, s ∈ l1 ++ l2 → s = {A} ∨ s = {B} := by
    intro s hs
    have := hperm.mem_iff.mp hs
    simp only [List.mem_cons, List.not_mem_nil, or_false] at this
    tauto
  have hwf : ∀ s ∈ l1 ++ l2, s.card < 2 ^ 64 ∧ ∀ x ∈ s, x < 2 ^ 64 := by
    intro s hs
    rcases hmem s hs with rfl | rfl
    · exact ⟨by simp, fun x hx => by simp at hx; omega⟩
    · exact ⟨by simp, fun x hx => by simp at hx; omega⟩
  have hwf1 : ∀ s ∈ l1, s.card < 2 ^ 64 ∧ ∀ x ∈ s, x < 2 ^ 64 :=
    fun s hs => hwf s (List.mem_append_left l2 hs)
  have hwf2 : ∀ s ∈ l2, s.card < 2 ^ 64 ∧ ∀ x ∈ s, x < 2 ^ 64 :=
    fun s hs => hwf s (List.mem_append_right l1 hs)
  have hstep1 :
      variant_append_merge none (l1.map serializeKGSet) =
        some (serializeKGSet (l1.foldl (· ∪ ·) ∅)) :=
    (hmain none l1 (by simp) hwf1).1
  set S1 : Finset Nat := l1.foldl (· ∪ ·) ∅ with hS1
  have hS1sub : S1 ⊆ {A, B} := by
    intro x hx
    rcases mem_foldl_union.mp hx with h | ⟨s, hs, hx⟩
    · simp at h
    · rcases hmem s (List.mem_append_left l2 hs) with rfl | rfl
      · simp at hx; simp [hx]
      · simp at hx; simp [hx]
  have hS1wf : ∀ s ∈ (some S1 : Option (Finset Nat)),
      s.card < 2 ^ 64 ∧ ∀ x ∈ s, x < 2 ^ 64 := by
    intro s hs
    cases hs
    constructor
    · have h2 : ({A, B} : Finset Nat).card ≤ 2 := Finset.card_le_two
      have := Finset.card_le_card hS1sub
      omega
    · intro x hx
      have := hS1sub hx
      simp at this
      rcases this with rfl | rfl <;> omega
  have hstep2 := (hmain (some S1) l2 hS1wf hwf2).1
  rw [hstep1]
  have hshape :
      (some S1).map serializeKGSet = some (serializeKGSet S1) := rfl
  rw [show variant_append_merge (some (serializeKGSet S1)) (l2.map serializeKGSet) =
      variant_append_merge ((some S1).map serializeKGSet) (l2.map serializeKGSet)
    from rfl, hstep2]
  have hfinal : l2.foldl (· ∪ ·) ((some S1 : Option (Finset Nat)).getD ∅) =
      {A, B} := by
    apply Finset.ext
    intro x
    rw [Option.getD_some, mem_foldl_union]
    constructor
    · rintro (hx | ⟨s, hs, hx⟩)
      · exact hS1sub hx
      · rcases hmem s (List.mem_append_right l1 hs) with rfl | rfl
        · simp at hx; simp [hx]
        · simp at hx; simp [hx]
    · intro hx
      have hAmem : ({A} : Finset Nat) ∈ l1 ++ l2 := by
        have : ({A} : Finset Nat) ∈ [({A} : Finset Nat), {B}, {A}] := by simp
        exact hperm.mem_iff.mpr this
      have hBmem : ({B} : Finset Nat) ∈ l1 ++ l2 := by
        have : ({B} : Finset Nat) ∈ [({A} : Finset Nat), {B}, {A}] := by simp
        exact hperm.mem_iff.mpr this
      simp only [Finset.mem_insert, Finset.mem_singleton] at hx
      rcases hx with rfl | rfl
      · rcases List.mem_append.mp hAmem with h | h
        · exact Or.inl (mem_foldl_union.mpr (Or.inr ⟨{x}, h, by simp⟩))
        · exact Or.inr ⟨{x}, h, by simp⟩
      · rcases List.mem_append.mp hBmem with h | h
        · exact Or.inl (mem_foldl_union.mpr (Or.inr ⟨{x}, h, by simp⟩))
        · exact Or.inr ⟨{x}, h, by simp⟩
  rw [hfinal]

/-- Witness for C2: merging the serialized singletons `{1}`, `{2}`, `{1}`
into an absent entry yields the serialized `{1, 2}`. -/
theorem variant_append_merge_union_witness :
    variant_append_merge none
      [serializeKGSet {1}, serializeKGSet {2}, serializeKGSet {1}] =
      some (serializeKGSet ({1, 2} : Finset Nat)) := by
  have h := (variant_append_merge_union.1 none [{1}, {2}, {1}]
    (by simp) (by decide)).1
  have hfold : ([{1}, {2}, {1}] : List (Finset Nat)).foldl (· ∪ ·)
      ((none : Option (Finset Nat)).getD ∅) = {1, 2} := by decide
  rw [hfold] at h
  exact h

/-! ### Reference pruning -/

theorem delete_variant_references_mem_some {G : Nat} {fps : List Bytes}
    {tbl : VariantsTable} {f : Bytes} {b : Bytes} (hnd : fps.Nodup)
    (hf : f ∈ fps) (hb : tbl f = some b) :
    delete_variant_references G fps tbl f =
      if 1 < bincode_vec_fixint_len b then
        some (encodeKGList (((bincode_vec_iter b).map leVal).filter
          (fun x => x ≠ G)))
      else none := by
  rw [delete_variant_references_mem hnd hf, hb]

theorem delete_variant_references_mem_none {G : Nat} {fps : List Bytes}
    {tbl : VariantsTable} {f : Bytes} (hnd : fps.Nodup)
    (hf : f ∈ fps) (hb : tbl f = none) :
    delete_variant_references G fps tbl f = none := by
  rw [delete_variant_references_mem hnd hf, hb]

theorem nodup_all_eq_singleton {l : List Nat} {b : Nat} (hnd : l.Nodup)
    (hb : b ∈ l) (hall : ∀ x ∈ l, x = b) : l = [b] := by
  cases l with
  | nil => cases hb
  | cons y t =>
    have hy : y = b := hall y (List.mem_cons_self y t)
    subst hy
    cases t with
    | nil => rfl
    | cons z t2 =>
      have hz : z = y := hall z (by simp)
      subst hz
      simp at hnd

/-- C3.  `delete_variant_references` establishes, for each listed fingerprint
with a stored decodable entry: if the decoded key-group list has more than one
element the entry is rewritten as exactly the original elements minus the
target (in order), and otherwise the entry is deleted; listed fingerprints
without an entry are skipped, and unlisted fingerprints are untouched.  In
particular an entry holding `{A, B}` loses `A` but keeps `{B}`, and deleting
`B` afterwards removes the entry so a subsequent visit reports absence. -/
theorem delete_variant_references_correct {G : Nat} {fps : List Bytes}
    {tbl : VariantsTable} (hnd : fps.Nodup) :
    (∀ f, f ∉ fps → delete_variant_references G fps tbl f = tbl f) ∧
    (∀ f, f ∈ fps → tbl f = none →
      delete_variant_references G fps tbl f = none) ∧
    (∀ f b l, f ∈ fps → tbl f = some b → decodeKGList b = some l →
      delete_variant_references G fps tbl f =
        if 1 < l.length then
          some (encodeKGList (l.filter (fun x => x ≠ G)))
        else none) ∧
    (∀ A B : Nat, A ≠ B → A < 2 ^ 64 → B < 2 ^ 64 →
      ∀ (f0 : Bytes) (t0 : VariantsTable),
        t0 f0 = some (serializeKGSet {A, B}) →
        delete_variant_references A [f0] t0 f0 = some (encodeKGList [B]) ∧
        delete_variant_references B [f0]
          (delete_variant_references A [f0] t0) f0 = none ∧
        visit_exact_variant
          (delete_variant_references B [f0]
            (delete_variant_references A [f0] t0))
          f0 (fun b acc => acc ++ [b]) ([] : List Bytes) = []) := by
  refine ⟨fun f hf => delete_variant_references_not_mem hf,
    fun f hf hb => delete_variant_references_mem_none hnd hf hb,
    fun f b l hf hb hl => ?_, ?_⟩
  · obtain ⟨hfl, hiter⟩ := bincode_vec_iter_decode hl
    rw [delete_variant_references_mem_some hnd hf hb, hfl, hiter]
  · intro A B hAB hA hB f0 t0 ht0
    have hcard2 : ({A, B} : Finset Nat).card = 2 := by
      rw [Finset.card_insert_of_not_mem (by simp [hAB]), Finset.card_singleton]
    have hcardlt : ({A, B} : Finset Nat).card < 2 ^ 64 := by
      rw [hcard2]; norm_num
    have helem : ∀ x ∈ ({A, B} : Finset Nat), x < 2 ^ 64 := by
      intro x hx
      simp only [Finset.mem_insert, Finset.mem_singleton] at hx
      rcases hx with rfl | rfl <;> omega
    have hdec : decodeKGList (serializeKGSet {A, B}) =
        some (({A, B} : Finset Nat).sort (· ≤ ·)) :=
      decodeKGList_serializeKGSet hcardlt helem
    obtain ⟨hfl, hiter⟩ := bincode_vec_iter_decode hdec
    have hlnd : (({A, B} : Finset Nat).sort (· ≤ ·)).Nodup :=
      Finset.sort_nodup (· ≤ ·) _
    have hlmem : ∀ x, x ∈ ({A, B} : Finset Nat).sort (· ≤ ·) ↔
        x = A ∨ x = B := by
      intro x
      rw [Finset.mem_sort]
      simp
    have hllen : (({A, B} : Finset Nat).sort (· ≤ ·)).length = 2 := by
      rw [Finset.length_sort, hcard2]
    have hfilt : (({A, B} : Finset Nat).sort (· ≤ ·)).filter
        (fun x => x ≠ A) = [B] := by
      apply nodup_all_eq_singleton (hlnd.filter _)
      · exact List.mem_filter.mpr
          ⟨(hlmem B).mpr (Or.inr rfl), by simp [Ne.symm hAB]⟩
      · intro x hx
        obtain ⟨hxl, hxA⟩ := List.mem_filter.mp hx
        rcases (hlmem x).mp hxl with rfl | rfl
        · simp at hxA
        · rfl
    have h1 : delete_variant_references A [f0] t0 f0 =
        some (encodeKGList [B]) := by
      rw [delete_variant_references_mem_some (by simp) (by simp) ht0, hfl,
        hiter, hllen, if_pos one_lt_two, hfilt]
    have hdecB : decodeKGList (encodeKGList [B]) = some [B] :=
      decodeKGList_encode (by norm_num) (by intro x hx; simp at hx; omega)
    obtain ⟨hfl2, _⟩ := bincode_vec_iter_decode hdecB
    have h2 : delete_variant_references B [f0]
        (delete_variant_references A [f0] t0) f0 = none := by
      rw [delete_variant_references_mem_some (by simp) (by simp) h1, hfl2]
      norm_num
    refine ⟨h1, h2, ?_⟩
    unfold visit_exact_variant
    rw [h2]

/-- Witness for C3: deleting key group 1 from a fingerprint whose entry
decodes to `[1, 2]` rewrites the entry to `[2]`. -/
theorem delete_variant_references_correct_witness :
    delete_variant_references 1 [[3]]
      (fun f => if f = [3] then some (encodeKGList [1, 2]) else none) [3] =
      some (encodeKGList [2]) := by
  have h := (@delete_variant_references_correct 1 [[3]]
    (fun f => if f = [3] then some (encodeKGList [1, 2]) else none)
    (by simp)).2.2.1 [3] (encodeKGList [1, 2]) [1, 2]
    (by simp) (by simp) (by decide)
  rw [h]
  decide

/-! ### The variants invariant -/

theorem delete_variant_step_invariant {G : Nat} {tbl : VariantsTable}
    {v : Bytes} (hinv : VariantInvariant tbl) :
    VariantInvariant (delete_variant_step G tbl v) := by
  intro f b hb
  unfold delete_variant_step at hb
  cases h : tbl v with
  | none =>
    rw [h] at hb
    exact hinv f b hb
  | some eb =>
    rw [h] at hb
    simp only at hb
    obtain ⟨hbytes, l, hdecl, hne, hlnd⟩ := hinv v eb h
    obtain ⟨hfl, hiter⟩ := bincode_vec_iter_decode hdecl
    obtain ⟨-, hllen, helem⟩ := decodeKGList_ok hdecl hbytes
    by_cases hlen : 1 < bincode_vec_fixint_len eb
    · rw [if_pos hlen] at hb
      by_cases hfv : f = v
      · rw [if_pos hfv] at hb
        cases hb
        rw [hiter]
        refine ⟨encodeKGList_bytes _, l.filter (fun x => x ≠ G), ?_, ?_, ?_⟩
        · exact decodeKGList_encode
            (lt_of_le_of_lt (l.length_filter_le _) hllen)
            (fun x hx => helem x (List.mem_of_mem_filter hx))
        · rw [hfl] at hlen
          match l, hlen, hlnd with
          | a :: c :: rest, _, hlnd2 =>
            have hac : a ≠ c := by
              intro heq
              subst heq
              simp at hlnd2
            by_cases haG : a = G
            · subst haG
              have hc : c ∈ (a :: c :: rest).filter (fun x => x ≠ a) := by
                refine List.mem_filter.mpr ⟨by simp, ?_⟩
                simpa using (Ne.symm hac)
              exact List.ne_nil_of_mem hc
            · have ha : a ∈ (a :: c :: rest).filter (fun x => x ≠ G) := by
                refine List.mem_filter.mpr ⟨by simp, by simpa using haG⟩
              exact List.ne_nil_of_mem ha
        · exact hlnd.filter _
      · rw [if_neg hfv] at hb
        exact hinv f b hb
    · rw [if_neg hlen] at hb
      by_cases hfv : f = v
      · rw [if_pos hfv] at hb
        cases hb
      · rw [if_neg hfv] at hb
        exact hinv f b hb

theorem delete_variant_references_invariant {G : Nat} :
    ∀ (fps : List Bytes) (tbl : VariantsTable), VariantInvariant tbl →
      VariantInvariant (delete_variant_references G fps tbl) := by
  intro fps
  induction fps with
  | nil => intro tbl hinv; exact hinv
  | cons v rest ih =>
    intro tbl hinv
    exact ih (delete_variant_step G tbl v) (delete_variant_step_invariant hinv)

theorem variant_append_merge_single {b : Bytes} {S : Finset Nat} {G : Nat}
    (hdec : decodeKGSet b = some S) (hG : G < 2 ^ 64) :
    variant_append_merge (some b) [new_variant_vec G] =
      some (serializeKGSet (S ∪ {G})) := by
  unfold variant_append_merge
  have hinit : (match some b with
      | some existing_bytes => decodeKGSet existing_bytes
      | none => some (∅ : Finset Nat)) = some S := hdec
  rw [hinit, Option.some_bind]
  have hop : decodeKGSet (new_variant_vec G) = some ({G} : Finset Nat) := by
    unfold decodeKGSet new_variant_vec
    rw [decodeKGList_encode (by norm_num) (by intro x hx; simp at hx; omega)]
    simp
  simp only [List.foldlM_cons, List.foldlM_nil, hop, Option.map_some']
  rfl

theorem variant_append_merge_absent_single {G : Nat} (hG : G < 2 ^ 64) :
    variant_append_merge none [new_variant_vec G] =
      some (serializeKGSet (∅ ∪ {G})) := by
  unfold variant_append_merge
  have hinit : (match (none : Option Bytes) with
      | some existing_bytes => decodeKGSet existing_bytes
      | none => some (∅ : Finset Nat)) = some (∅ : Finset Nat) := rfl
  rw [hinit, Option.some_bind]
  have hop : decodeKGSet (new_variant_vec G) = some ({G} : Finset Nat) := by
    unfold decodeKGSet new_variant_vec
    rw [decodeKGList_encode (by norm_num) (by intro x hx; simp at hx; omega)]
    simp
  simp only [List.foldlM_cons, List.foldlM_nil, hop, Option.map_some']
  rfl

/-- The invariant facts about any `serializeKGSet` of a non-empty bounded
set: genuine bytes decoding to a non-empty duplicate-free list. -/
theorem serializeKGSet_invariant_entry {S : Finset Nat} (hcard : S.card < 2 ^ 64)
    (helem : ∀ x ∈ S, x < 2 ^ 64) (hne : S.Nonempty) :
    (∀ y ∈ serializeKGSet S, y < 256) ∧
    ∃ l, decodeKGList (serializeKGSet S) = some l ∧ l ≠ [] ∧ l.Nodup := by
  refine ⟨encodeKGList_bytes _, S.sort (· ≤ ·),
    decodeKGList_serializeKGSet hcard helem, ?_, Finset.sort_nodup (· ≤ ·) S⟩
  obtain ⟨x, hx⟩ := hne
  exact List.ne_nil_of_mem ((Finset.mem_sort (α := Nat) (· ≤ ·)).mpr hx)

theorem put_variant_references_invariant {G : Nat} (hG : G < 2 ^ 64) :
    ∀ (fps : List Bytes) (tbl : VariantsTable), fps.Nodup →
      VariantInvariant tbl →
      (∀ f ∈ fps, ∀ b l, tbl f = some b → decodeKGList b = some l →
        l.length < USIZE_MAX) →
      ∃ tbl2, put_variant_references G fps tbl = some tbl2 ∧
        VariantInvariant tbl2 := by
  intro fps
  induction fps with
  | nil =>
    intro tbl _ hinv _
    exact ⟨tbl, rfl, hinv⟩
  | cons v rest ih =>
    intro tbl hnd hinv hsize
    obtain ⟨hvrest, hndrest⟩ := List.nodup_cons.mp hnd
    have husz : USIZE_MAX < 2 ^ 64 := by norm_num [USIZE_MAX]
    -- the merged value at `v`
    obtain ⟨merged, hmerge, hminv⟩ :
        ∃ m, variant_append_merge (tbl v) [new_variant_vec G] = some m ∧
          ((∀ y ∈ m, y < 256) ∧
            ∃ l, decodeKGList m = some l ∧ l ≠ [] ∧ l.Nodup) := by
      cases hv : tbl v with
      | none =>
        refine ⟨_, variant_append_merge_absent_single hG, ?_⟩
        apply serializeKGSet_invariant_entry
        · have : (∅ ∪ {G} : Finset Nat).card = 1 := by simp
          omega
        · intro x hx
          simp at hx
          omega
        · exact ⟨G, by simp⟩
      | some b =>
        obtain ⟨hbytes, l, hdecl, hne, hlnd⟩ := hinv v b hv
        obtain ⟨-, hllen, helem⟩ := decodeKGList_ok hdecl hbytes
        have hdecS : decodeKGSet b = some l.toFinset := by
          unfold decodeKGSet
          rw [hdecl, Option.map_some']
        refine ⟨_, variant_append_merge_single hdecS hG, ?_⟩
        apply serializeKGSet_invariant_entry
        · have h1 : (l.toFinset ∪ {G}).card ≤ l.toFinset.card + 1 := by
            have := Finset.card_union_le l.toFinset ({G} : Finset Nat)
            simpa using this
          have h2 : l.toFinset.card ≤ l.length := l.toFinset_card_le
          have h3 : l.length < USIZE_MAX := hsize v (by simp) b l hv hdecl
          omega
        · intro x hx
          rcases Finset.mem_union.mp hx with h | h
          · exact helem x (List.mem_toFinset.mp h)
          · simp at h
            omega
        · exact ⟨G, by simp⟩
    -- the updated table after processing `v`
    have hstep : put_variant_references G (v :: rest) tbl =
        put_variant_references G rest
          (fun f => if f = v then some merged else tbl f) := by
      unfold put_variant_references
      rw [List.foldlM_cons, hmerge, Option.map_some']
      rfl
    have hinv1 : VariantInvariant (fun f => if f = v then some merged else tbl f) := by
      intro f b hb
      have hb2 : (if f = v then some merged else tbl f) = some b := hb
      by_cases hfv : f = v
      · rw [if_pos hfv] at hb2
        cases hb2
        exact hminv
      · rw [if_neg hfv] at hb2
        exact hinv f b hb2
    have hsize1 : ∀ f ∈ rest, ∀ b l,
        (fun f => if f = v then some merged else tbl f) f = some b →
        decodeKGList b = some l → l.length < USIZE_MAX := by
      intro f hf b l hb hl
      have hfv : f ≠ v := fun h => hvrest (h ▸ hf)
      have hb2 : (if f = v then some merged else tbl f) = some b := hb
      rw [if_neg hfv] at hb2
      exact hsize f (List.mem_cons_of_mem v hf) b l hb2 hl
    obtain ⟨tbl2, hput, hinv2⟩ := ih _ hndrest hinv1 hsize1
    exact ⟨tbl2, by rw [hstep, hput], hinv2⟩

/-- C4.  Both variants-table operations preserve the table invariant: every
stored entry decodes to a non-empty duplicate-free `KeyGroupID` sequence and
no empty entry is ever left behind.  The side conditions say the inputs are
`usize`-representable (the key group is a `usize` and every stored set fits
in memory, i.e. can still grow by one element). -/
theorem variants_invariant_preserved {G : Nat} {fps : List Bytes}
    {tbl : VariantsTable} (hG : G < 2 ^ 64) (hnd : fps.Nodup)
    (hinv : VariantInvariant tbl)
    (hsize : ∀ f ∈ fps, ∀ b l, tbl f = some b → decodeKGList b = some l →
      l.length < USIZE_MAX) :
    (∃ tbl2, put_variant_references G fps tbl = some tbl2 ∧
      VariantInvariant tbl2) ∧
    VariantInvariant (delete_variant_references G fps tbl) :=
  ⟨put_variant_references_invariant hG fps tbl hnd hinv hsize,
   delete_variant_references_invariant fps tbl hinv⟩

/-- Witness for C4: putting and deleting key group 1 at fingerprint `[7]` on
the empty variants table preserves the invariant. -/
theorem variants_invariant_preserved_witness :
    (∃ tbl2, put_variant_references 1 [[7]] (fun _ => none) = some tbl2 ∧
      VariantInvariant tbl2) ∧
    VariantInvariant (delete_variant_references 1 [[7]] (fun _ => none)) :=
  variants_invariant_preserved (by norm_num) (by simp)
    (fun f b hb => by cases hb) (fun f _ b l hb => by cases hb)

/-! ### Varint codec lemmas -/

theorem varintDecode_encode {n : Nat} (h : n < 2 ^ 64) (rest : Bytes) :
    varintDecode (varintEncode n ++ rest) = some (n, rest) := by
  have h64 : n < 18446744073709551616 := by
    have : (2 : Nat) ^ 64 = 18446744073709551616 := by norm_num
    omega
  unfold varintEncode
  split_ifs with h1 h2 h3
  · show varintDecode (n :: rest) = some (n, rest)
    simp only [varintDecode]
    rw [if_pos h1]
  · show varintDecode (251 :: n % 256 :: n / 256 % 256 :: rest) = some (n, rest)
    simp only [varintDecode]
    rw [if_neg (by norm_num), if_pos trivial,
      if_pos (by simp only [List.length_cons]; omega)]
    rw [show (n % 256 :: n / 256 % 256 :: rest).take 2 =
        [n % 256, n / 256 % 256] from rfl,
      show (n % 256 :: n / 256 % 256 :: rest).drop 2 = rest from rfl]
    simp only [leVal, List.foldr_cons, List.foldr_nil]
    rw [show n % 256 + 256 * (n / 256 % 256 + 256 * 0) = n by omega]
  · show varintDecode (252 :: n % 256 :: n / 256 % 256 :: n / 65536 % 256 ::
        n / 16777216 % 256 :: rest) = some (n, rest)
    simp only [varintDecode]
    rw [if_neg (by norm_num), if_neg (by norm_num), if_pos trivial,
      if_pos (by simp only [List.length_cons]; omega)]
    rw [show (n % 256 :: n / 256 % 256 :: n / 65536 % 256 ::
        n / 16777216 % 256 :: rest).take 4 =
        [n % 256, n / 256 % 256, n / 65536 % 256, n / 16777216 % 256] from rfl,
      show (n % 256 :: n / 256 % 256 :: n / 65536 % 256 ::
        n / 16777216 % 256 :: rest).drop 4 = rest from rfl]
    simp only [leVal, List.foldr_cons, List.foldr_nil]
    rw [show n % 256 + 256 * (n / 256 % 256 + 256 * (n / 65536 % 256 +
      256 * (n / 16777216 % 256 + 256 * 0))) = n by omega]
  · show varintDecode (253 :: (u64Bytes n ++ rest)) = some (n, rest)
    simp only [varintDecode]
    rw [if_neg (by norm_num), if_neg (by norm_num), if_neg (by norm_num),
      if_pos trivial,
      if_pos (by rw [List.length_append, length_u64Bytes]; omega)]
    rw [List.take_append_of_le_length (by rw [length_u64Bytes]),
      List.drop_append_of_le_length (by rw [length_u64Bytes]),
      List.take_of_length_le (by rw [length_u64Bytes]),
      List.drop_of_length_le (by rw [length_u64Bytes]), List.nil_append,
      leVal_u64Bytes h]

theorem decodeKeyElems_encode {l : List Nat} (h : ∀ x ∈ l, x < 2 ^ 64) :
    ∀ rest : Bytes,
      decodeKeyElems l.length ((l.map varintEncode).flatten ++ rest) =
        some (l, rest) := by
  induction l with
  | nil => intro rest; rfl
  | cons a t ih =>
    intro rest
    have ha : a < 2 ^ 64 := h a (List.mem_cons_self a t)
    have ht : ∀ x ∈ t, x < 2 ^ 64 := fun x hx => h x (List.mem_cons_of_mem a hx)
    simp only [List.length_cons, List.map_cons, List.flatten_cons, decodeKeyElems]
    rw [List.append_assoc, varintDecode_encode ha, Option.some_bind, ih ht rest,
      Option.some_bind]

theorem decodeKeyList_encode {l : List Nat} (hlen : l.length < 2 ^ 64)
    (h : ∀ x ∈ l, x < 2 ^ 64) : decodeKeyList (encodeKeyList l) = some l := by
  unfold decodeKeyList encodeKeyList
  rw [show (l.map varintEncode).flatten =
      (l.map varintEncode).flatten ++ [] from (List.append_nil _).symm,
    varintDecode_encode hlen, Option.some_bind, decodeKeyElems_encode h [],
    Option.some_bind, if_pos rfl]

theorem decodeKeyElems_length :
    ∀ {n : Nat} {rest : Bytes} {l : List Nat} {r : Bytes},
      decodeKeyElems n rest = some (l, r) → l.length = n := by
  intro n
  induction n with
  | zero =>
    intro rest l r hd
    unfold decodeKeyElems at hd
    cases hd
    rfl
  | succ n ih =>
    intro rest l r hd
    unfold decodeKeyElems at hd
    cases hv : varintDecode rest with
    | none => rw [hv] at hd; cases hd
    | some p =>
      rw [hv, Option.some_bind] at hd
      cases he : decodeKeyElems n p.2 with
      | none => rw [he] at hd; cases hd
      | some q =>
        rw [he, Option.some_bind] at hd
        cases hd
        simp [ih he]

theorem decodeKeyList_prefix {b : Bytes} {keys : List Nat}
    (hd : decodeKeyList b = some keys) :
    ∃ r, varintDecode b = some (keys.length, r) := by
  unfold decodeKeyList at hd
  cases hv : varintDecode b with
  | none => rw [hv] at hd; cases hd
  | some p =>
    rw [hv, Option.some_bind] at hd
    cases he : decodeKeyElems p.1 p.2 with
    | none => rw [he] at hd; cases hd
    | some q =>
      rw [he, Option.some_bind] at hd
      by_cases hq : q.2 = []
      · rw [if_pos hq] at hd
        cases hd
        have := decodeKeyElems_length he
        exact ⟨p.2, by rw [this]⟩
      · rw [if_neg hq] at hd
        cases hd

/-! ### Key-group round trips and counts -/

/-- Counterexample to C5 as stated: storing the empty key-group set and
reading it back does not succeed — `get_keys_in_group` treats a decoded empty
vector as the `Invalid record_id` error. -/
theorem put_get_key_group_empty_cex :
    get_keys_in_group (put_key_group_entry (fun _ => none) 0 ∅) 0 =
      RustResult.err "Invalid record_id" ∧
    ∀ l : List Nat,
      get_keys_in_group (put_key_group_entry (fun _ => none) 0 ∅) 0 ≠
        RustResult.ok l := by
  have hput : put_key_group_entry (fun _ => none) 0 (∅ : Finset Nat) 0 =
      some (serializeKeySet ∅) := by
    unfold put_key_group_entry
    rw [if_pos rfl]
  have hs : decodeKeyList (serializeKeySet (∅ : Finset Nat)) = some [] := by
    unfold serializeKeySet
    rw [Finset.sort_empty]
    exact decodeKeyList_encode (by norm_num) (by intro x hx; cases hx)
  have hres : get_keys_in_group (put_key_group_entry (fun _ => none) 0 ∅) 0 =
      RustResult.err "Invalid record_id" := by
    unfold get_keys_in_group
    simp only [hput, hs, ne_eq, not_true_eq_false, if_false, ite_false]
  refine ⟨hres, fun l h => ?_⟩
  rw [hres] at h
  cases h

/-- C5 (amended: `S` non-empty, which `get_keys_in_group` requires).
`put_key_group_entry(id, S)` followed by `get_keys_in_group(id)` succeeds and
yields exactly the elements of `S`, independent of order. -/
theorem put_get_key_group_roundtrip {tbl : KeysTable} {id : Nat}
    {S : Finset Nat} (hne : S.Nonempty) (hcard : S.card < 2 ^ 64)
    (helem : ∀ x ∈ S, x < 2 ^ 64) :
    ∃ l, get_keys_in_group (put_key_group_entry tbl id S) id =
        RustResult.ok l ∧ l.Nodup ∧ ∀ x, x ∈ l ↔ x ∈ S := by
  have hput : put_key_group_entry tbl id S id = some (serializeKeySet S) := by
    unfold put_key_group_entry
    rw [if_pos rfl]
  have hdec : decodeKeyList (serializeKeySet S) = some (S.sort (· ≤ ·)) := by
    unfold serializeKeySet
    rw [decodeKeyList_encode]
    · rw [Finset.length_sort]; exact hcard
    · intro x hx
      exact helem x ((Finset.mem_sort (α := Nat) (· ≤ ·)).mp hx)
  have hsne : S.sort (· ≤ ·) ≠ [] := by
    obtain ⟨x, hx⟩ := hne
    exact List.ne_nil_of_mem ((Finset.mem_sort (α := Nat) (· ≤ ·)).mpr hx)
  refine ⟨S.sort (· ≤ ·), ?_, Finset.sort_nodup (· ≤ ·) S, ?_⟩
  · unfold get_keys_in_group
    rw [hput]
    simp only [hdec]
    rw [if_pos hsne]
  · intro x
    rw [Finset.mem_sort]

/-- Witness for C5 (amended): the set `{4, 9}` survives the round trip. -/
theorem put_get_key_group_roundtrip_witness :
    ∃ l, get_keys_in_group
        (put_key_group_entry (fun _ => none) 2 ({4, 9} : Finset Nat)) 2 =
        RustResult.ok l ∧ l.Nodup ∧ ∀ x, x ∈ l ↔ x ∈ ({4, 9} : Finset Nat) :=
  put_get_key_group_roundtrip (by decide) (by decide)
    (fun x hx => by simp at hx; omega)

/-- C6.  Whenever `get_keys_in_group` succeeds with a key list,
`keys_count_in_group` — which reads only the length prefix — returns exactly
that list's length. -/
theorem keys_count_consistent {tbl : KeysTable} {g : Nat} {l : List Nat}
    (h : get_keys_in_group tbl g = RustResult.ok l) :
    keys_count_in_group tbl g = RustResult.ok l.length := by
  unfold get_keys_in_group at h
  split at h
  · rename_i b htbl
    split at h
    · rename_i keys hdec
      split at h
      · cases h
        obtain ⟨r, hv⟩ := decodeKeyList_prefix hdec
        unfold keys_count_in_group
        simp only [htbl, hv]
      · cases h
    · cases h
  · cases h

/-- Witness for C6: a stored singleton entry gives count 1. -/
theorem keys_count_consistent_witness :
    keys_count_in_group
      (fun g => if g = 0 then some (encodeKeyList [5]) else none) 0 =
      RustResult.ok 1 := by
  have h : get_keys_in_group
      (fun g => if g = 0 then some (encodeKeyList [5]) else none) 0 =
      RustResult.ok [5] := by decide
  exact keys_count_consistent h

/-! ### Record table and error surfacing -/

/-- C7.  `get_record_key_groups` returns the NotFound-style error exactly
when `rec_data` has no entry for the record or the stored group-index list
decodes to an empty list (a corrupt entry panics instead, falling under
neither side); otherwise it succeeds and yields the `KeyGroupID` rebuilt from
the record and each stored index, in order. -/
theorem get_record_key_groups_errors (tbl : RecDataTable) (record_id : Nat) :
    (get_record_key_groups tbl record_id = RustResult.err "Invalid record_id" ↔
      (tbl record_id = none ∨
        ∃ b, tbl record_id = some b ∧ decodeKeyList b = some [])) ∧
    (∀ b l, tbl record_id = some b → decodeKeyList b = some l → l ≠ [] →
      get_record_key_groups tbl record_id =
        RustResult.ok (l.map (fun group_idx =>
          from_record_and_idx record_id group_idx))) := by
  constructor
  · cases htbl : tbl record_id with
    | none =>
      have hres : get_record_key_groups tbl record_id =
          RustResult.err "Invalid record_id" := by
        unfold get_record_key_groups
        simp only [htbl]
      rw [hres]
      exact ⟨fun _ => Or.inl rfl, fun _ => rfl⟩
    | some b =>
      cases hdec : decodeKeyList b with
      | none =>
        have hres : get_record_key_groups tbl record_id =
            RustResult.panicked := by
          unfold get_record_key_groups
          simp only [htbl, hdec]
        rw [hres]
        constructor
        · intro h; cases h
        · rintro (h | ⟨b2, hb2, hd2⟩)
          · cases h
          · cases hb2
            rw [hdec] at hd2
            cases hd2
      | some key_groups =>
        by_cases hk : key_groups = []
        · subst hk
          have hres : get_record_key_groups tbl record_id =
              RustResult.err "Invalid record_id" := by
            unfold get_record_key_groups
            simp only [htbl, hdec, ne_eq, not_true_eq_false, ite_false]
          rw [hres]
          exact ⟨fun _ => Or.inr ⟨b, rfl, hdec⟩, fun _ => rfl⟩
        · have hres : get_record_key_groups tbl record_id =
              RustResult.ok (key_groups.map (fun group_idx =>
                from_record_and_idx record_id group_idx)) := by
            unfold get_record_key_groups
            simp only [htbl, hdec, ne_eq, hk, not_false_eq_true, ite_true]
          rw [hres]
          constructor
          · intro h; cases h
          · rintro (h | ⟨b2, hb2, hd2⟩)
            · cases h
            · cases hb2
              rw [hdec] at hd2
              cases hd2
              exact absurd rfl hk
  · intro b l htbl hdec hne
    unfold get_record_key_groups
    simp only [htbl, hdec, ne_eq, hne, not_false_eq_true, ite_true]

/-- Witness for C7: a stored record with indices `[1, 2]` yields the two
reconstructed `KeyGroupID`s; a missing record yields the error. -/
theorem get_record_key_groups_errors_witness :
    get_record_key_groups
      (fun r => if r = 0 then some (encodeKeyList [1, 2]) else none) 0 =
      RustResult.ok [from_record_and_idx 0 1, from_record_and_idx 0 2] ∧
    get_record_key_groups
      (fun r => if r = 0 then some (encodeKeyList [1, 2]) else none) 5 =
      RustResult.err "Invalid record_id" := by
  constructor
  · exact (get_record_key_groups_errors _ 0).2 (encodeKeyList [1, 2]) [1, 2]
      (by simp) (by decide) (by decide)
  · exact ((get_record_key_groups_errors _ 5).1).mpr (Or.inl (by simp))

/-- C8.  `keys_count_in_group` never returns an error value: an absent entry
panics (the model's `panicked`), and a present entry yields the decoded
varint length prefix. -/
theorem keys_count_fatal_on_absent (tbl : KeysTable) (g : Nat) :
    (tbl g = none → keys_count_in_group tbl g = RustResult.panicked) ∧
    (∀ b n r, tbl g = some b → varintDecode b = some (n, r) →
      keys_count_in_group tbl g = RustResult.ok n) ∧
    (∀ s, keys_count_in_group tbl g ≠ RustResult.err s) := by
  refine ⟨fun h => by unfold keys_count_in_group; simp only [h],
    fun b n r hb hv => by unfold keys_count_in_group; simp only [hb, hv],
    fun s h => ?_⟩
  unfold keys_count_in_group at h
  split at h
  · rename_i b hb
    split at h
    · cases h
    · cases h
  · cases h

/-- Witness for C8: the absent entry panics; a singleton entry counts 1. -/
theorem keys_count_fatal_on_absent_witness :
    keys_count_in_group (fun _ => none) 0 = RustResult.panicked ∧
    keys_count_in_group
      (fun g => if g = 0 then some (encodeKeyList [5]) else none) 0 =
      RustResult.ok 1 := by
  constructor
  · exact (keys_count_fatal_on_absent (fun _ => none) 0).1 rfl
  · exact (keys_count_fatal_on_absent _ 0).2.1 (encodeKeyList [5]) 1 [5]
      (by simp) (by decide)

/-! ### Reset -/

/-- C9.  After `reset_database` all four column families are empty (every
point read reports absence), the merge operator is re-installed on
`variants`, and `record_count` returns 0; the model's reset is total, so it
is in particular safe on a freshly opened store. -/
theorem reset_database_clears (s : DBState) :
    (∀ k, (reset_database s).keys k = none) ∧
    (∀ k, (reset_database s).rec_data k = none) ∧
    (∀ k, (reset_database s).values k = none) ∧
    (∀ f, (reset_database s).variants f = none) ∧
    (reset_database s).variantsMergeInstalled = true ∧
    record_count (reset_database s) = some 0 := by
  refine ⟨fun _ => rfl, fun _ => rfl, fun _ => rfl, fun _ => rfl, rfl, ?_⟩
  have h255 : (255 : Nat) ≤ USIZE_MAX := by norm_num [USIZE_MAX]
  obtain ⟨hg1, hg2, hg3⟩ := initial_guess_bounds h255
  have hmax : USIZE_MAX = 18446744073709551615 := by norm_num [USIZE_MAX]
  have h66 : (2 : Nat) ^ 66 = 73786976294838206464 := by norm_num
  refine probeLoop_correct (fun k => rfl) (2 ^ 66) 0 USIZE_MAX
    (initial_guess 255) 255 (Nat.zero_le 0) (Nat.zero_le _) (Nat.zero_le _)
    hg1 hg2 hg3 ?_
  rw [if_neg (show (255 : Nat) ≠ USIZE_MAX by omega)]
  omega

/-! ### Variant visits -/

/-- C10.  For a fingerprint with no stored entry, `visit_exact_variant` (and
`visit_variants` on each absent fingerprint of its set) completes without
invoking the visitor closure; each present fingerprint gets the closure
invoked exactly once with the raw stored entry bytes.  The recording closure
collects the exact sequence of invocations. -/
theorem visit_variants_closure_calls (tbl : VariantsTable) (fp : Bytes)
    (fps : List Bytes) :
    (tbl fp = none →
      visit_exact_variant tbl fp (fun b acc => acc ++ [b])
        ([] : List Bytes) = []) ∧
    (∀ b, tbl fp = some b →
      visit_exact_variant tbl fp (fun b acc => acc ++ [b])
        ([] : List Bytes) = [b]) ∧
    visit_variants tbl fps (fun b acc => acc ++ [b]) ([] : List Bytes) =
      fps.filterMap tbl := by
  refine ⟨fun h => by unfold visit_exact_variant; rw [h],
    fun b h => by unfold visit_exact_variant; rw [h]; rfl,
    ?_⟩
  have htrace : ∀ (fps2 : List Bytes) (init : List Bytes),
      visit_variants tbl fps2 (fun b acc => acc ++ [b]) init =
        init ++ fps2.filterMap tbl := by
    intro fps2
    induction fps2 with
    | nil => intro init; simp [visit_variants]
    | cons v rest ih =>
      intro init
      show visit_variants tbl rest (fun b acc => acc ++ [b])
          (match tbl v with
           | some vb => init ++ [vb]
           | none => init) = init ++ (v :: rest).filterMap tbl
      cases hv : tbl v with
      | none =>
        rw [ih init]
        simp [List.filterMap_cons, hv]
      | some vb =>
        rw [ih (init ++ [vb])]
        simp [List.filterMap_cons, hv]
  simpa using htrace fps []

/-- Witness for C10: an absent fingerprint records no call, a present one
records its bytes once, and a mixed set records exactly the present ones. -/
theorem visit_variants_closure_calls_witness :
    visit_exact_variant
      (fun f => if f = [1] then some [9, 9] else none) [2]
      (fun b acc => acc ++ [b]) ([] : List Bytes) = [] ∧
    visit_exact_variant
      (fun f => if f = [1] then some [9, 9] else none) [1]
      (fun b acc => acc ++ [b]) ([] : List Bytes) = [[9, 9]] ∧
    visit_variants
      (fun f => if f = [1] then some [9, 9] else none) [[1], [2]]
      (fun b acc => acc ++ [b]) ([] : List Bytes) = [[9, 9]] := by
  refine ⟨(visit_variants_closure_calls _ [2] []).1 (by simp),
    (visit_variants_closure_calls _ [1] []).2.1 [9, 9] (by simp),
    ?_⟩
  have h := (visit_variants_closure_calls
    (fun f => if f = [1] then some [9, 9] else none) [1] [[1], [2]]).2.2
  rw [h]
  decide

end FuzzyRocksDB